import Mathlib

/-!
Verification development for the assembla export interpreter and wiki replay
engine (`assembla2github.py`).

The Python code is shallowly embedded:

* JSON scalar values are modelled by `JValue`; Python truthiness by `truthy`.
* Python `dict`s are modelled as association lists with insertion-order
  update semantics (`pyInsert`, `pyLookup`, `pyDictFromPairs`): assigning to
  an existing key overwrites its value in place, assigning a fresh key
  appends it.  A Python dict comprehension or literal is `pyDictFromPairs`
  of the corresponding pair list, so a duplicated key keeps the last value.
* Uncaught Python exceptions (`AssertionError`, `KeyError`, JSON decode
  errors) are modelled with `Except String`; the script has no `try` around
  the core pipeline, so an `Except.error` value is a fatal abort.
* `datetime` values (produced by `datetime.fromisoformat`) are modelled as
  `Nat` timestamps, with `≤` as the datetime order and `toString` standing
  for Python `str` on them.
* Python's `sorted(l, key=k)` is a stable sort by `k`; it is embedded as
  `List.insertionSort` on the pulled-back relation, which computes the same
  function (a stable sort by a total preorder is unique).
-/

/-- A JSON scalar value as it appears in a parsed export row. -/
inductive JValue where
  | null : JValue
  | bool : Bool → JValue
  | num : Int → JValue
  | str : String → JValue
deriving DecidableEq, Repr

/-- Python truthiness of a `JValue` (`if parent:` in the source):
`None`, `False`, `0` and the empty string are falsy. -/
def truthy : JValue → Bool
  | JValue.null => false
  | JValue.bool b => b
  | JValue.num n => n != 0
  | JValue.str s => s != ""

/-- Python `d[k] = v` on a dict represented as an association list:
overwrite the value of an existing key in place, else append the pair. -/
def pyInsert {α β : Type} [DecidableEq α] : List (α × β) → α → β → List (α × β)
  | [], k, v => [(k, v)]
  | (k0, v0) :: rest, k, v =>
    if k0 = k then (k0, v) :: rest else (k0, v0) :: pyInsert rest k v

/-- Python `d.get(k)` / `d[k]` on the association-list dict. -/
def pyLookup {α β : Type} [DecidableEq α] : List (α × β) → α → Option β
  | [], _ => none
  | (k0, v0) :: rest, k => if k0 = k then some v0 else pyLookup rest k

/-- Build a dict from a pair list left to right, later pairs overwriting
earlier ones — the semantics of a Python dict comprehension or literal. -/
def pyDictFromPairs {α β : Type} [DecidableEq α] (ps : List (α × β)) : List (α × β) :=
  ps.foldl (fun d q => pyInsert d q.1 q.2) []

/-- The value of the last pair of `ps` whose key is `k`, if any. -/
def lastAssoc {α β : Type} [DecidableEq α] : List (α × β) → α → Option β
  | [], _ => none
  | (k0, v0) :: rest, k =>
    match lastAssoc rest k with
    | some v => some v
    | none => if k0 = k then some v0 else none

theorem pyLookup_pyInsert {α β : Type} [DecidableEq α]
    (d : List (α × β)) (k k' : α) (v : β) :
    pyLookup (pyInsert d k v) k' = if k' = k then some v else pyLookup d k' := by
  induction d with
  | nil =>
    simp only [pyInsert, pyLookup]
    by_cases h : k' = k
    · subst h; simp
    · rw [if_neg (fun he => h he.symm), if_neg h]
  | cons q rest ih =>
    obtain ⟨k0, v0⟩ := q
    by_cases h0 : k0 = k
    · subst h0
      simp only [pyInsert, if_pos rfl, pyLookup]
      by_cases h : k0 = k'
      · subst h; simp
      · have h2 : ¬ k' = k0 := fun he => h he.symm
        simp [h, h2]
    · simp only [pyInsert, if_neg h0, pyLookup]
      by_cases h : k0 = k'
      · subst h
        rw [if_pos rfl, if_pos rfl, if_neg h0]
      · simp [h, ih]

theorem pyLookup_foldl_pyInsert {α β : Type} [DecidableEq α]
    (ps : List (α × β)) (d : List (α × β)) (k : α) :
    pyLookup (ps.foldl (fun d q => pyInsert d q.1 q.2) d) k =
      match lastAssoc ps k with
      | some v => some v
      | none => pyLookup d k := by
  induction ps generalizing d with
  | nil => simp [lastAssoc]
  | cons q ps ih =>
    obtain ⟨k0, v0⟩ := q
    simp only [List.foldl_cons, ih, lastAssoc]
    cases hrest : lastAssoc ps k with
    | some v => simp
    | none =>
      simp only [pyLookup_pyInsert]
      by_cases h : k0 = k
      · subst h; simp
      · have h' : ¬ k = k0 := fun he => h he.symm
        simp [h, h']

theorem pyLookup_pyDictFromPairs {α β : Type} [DecidableEq α]
    (ps : List (α × β)) (k : α) :
    pyLookup (pyDictFromPairs ps) k = lastAssoc ps k := by
  rw [pyDictFromPairs, pyLookup_foldl_pyInsert]
  cases lastAssoc ps k <;> simp [pyLookup]

/-- Unfolding equation for `lastAssoc` on a cons cell. -/
theorem lastAssoc_cons {α β : Type} [DecidableEq α]
    (k0 : α) (v0 : β) (rest : List (α × β)) (k : α) :
    lastAssoc ((k0, v0) :: rest) k =
      match lastAssoc rest k with
      | some v => some v
      | none => if k0 = k then some v0 else none := rfl

/-- `lastAssoc` is the last matching binding: searching the reversed list for
the first pair with the given key finds the same value. -/
theorem lastAssoc_eq_find_reverse {α β : Type} [DecidableEq α]
    (ps : List (α × β)) (k : α) :
    lastAssoc ps k = (ps.reverse.find? (fun q => q.1 == k)).map Prod.snd := by
  induction ps with
  | nil => simp [lastAssoc]
  | cons q ps ih =>
    obtain ⟨k0, v0⟩ := q
    rw [lastAssoc_cons, List.reverse_cons, List.find?_append, ih]
    cases hrest : ps.reverse.find? (fun q => q.1 == k) with
    | some v => simp
    | none =>
      by_cases h : k0 = k
      · subst h
        simp [List.find?]
      · have hb : (k0 == k) = false := beq_eq_false_iff_ne.mpr h
        simp [List.find?, hb, h]

/-!
## `mapjsonlinetoassembblaobject` (source lines 102–115)

```python
arr = json.loads(jsonstring)
if len(arr) != len(fieldlist):
    raise AssertionError('Assertion fail: {3} line [{0}] actual fields [{1}] != expected fields [{2}]'
                         .format(linenum, len(arr), len(fieldlist), linetype))
return {field: value for field, value in zip(fieldlist, arr)}
```

`json.loads` is external; the embedding receives the already-parsed value
array `arr`.  The `AssertionError` becomes `Except.error` with the exact
formatted message.
-/

/-- The `AssertionError` message of the field-count check, with the format
string's placeholders substituted as `str.format` does. -/
def assertionFailMsg (linenum actual expected : Nat) (linetype : String) : String :=
  "Assertion fail: " ++ linetype ++ " line [" ++ toString linenum ++
    "] actual fields [" ++ toString actual ++ "] != expected fields [" ++
    toString expected ++ "]"

/-- Embedding of `mapjsonlinetoassembblaobject`: zip the declared field list
against the positional value array into a dict, after the length check. -/
def mapjsonlinetoassembblaobject (arr : List JValue) (fieldlist : List String)
    (linenum : Nat) (linetype : String) :
    Except String (List (String × JValue)) :=
  if arr.length ≠ fieldlist.length then
    Except.error (assertionFailMsg linenum arr.length fieldlist.length linetype)
  else
    Except.ok (pyDictFromPairs (fieldlist.zip arr))

/-- If a key does not occur among the schema names, the zipped dict has no
binding for it. -/
theorem lastAssoc_zip_not_mem {β : Type} (S : List String) (V : List β)
    (s : String) (hs : s ∉ S) :
    lastAssoc (S.zip V) s = none := by
  induction S generalizing V with
  | nil => rfl
  | cons a S ih =>
    cases V with
    | nil => rfl
    | cons v V =>
      have h1 : s ∉ S := fun h => hs (List.mem_cons_of_mem a h)
      have h2 : ¬ a = s := fun h => hs (h ▸ List.mem_cons_self a S)
      rw [show (a :: S).zip (v :: V) = (a, v) :: S.zip V from rfl, lastAssoc_cons, ih V h1]
      simp [h2]

/-- On a schema with pairwise-distinct names, every field of the zipped dict
looks up to its positional value. -/
theorem lastAssoc_zip_nodup {β : Type} (S : List String) (V : List β)
    (hnd : S.Nodup) (hlen : V.length = S.length)
    (i : Nat) (hi : i < S.length) :
    lastAssoc (S.zip V) (S.get ⟨i, hi⟩) =
      some (V.get ⟨i, by rw [hlen]; exact hi⟩) := by
  induction S generalizing V i with
  | nil => exact absurd hi (by simp)
  | cons s S ih =>
    cases V with
    | nil => exact absurd hlen (by simp)
    | cons v V =>
      have hlen' : V.length = S.length := by simpa using hlen
      have hnd' : S.Nodup := hnd.of_cons
      cases i with
      | zero =>
        have hs : s ∉ S := by simpa using (List.nodup_cons.mp hnd).1
        have hget : (s :: S).get ⟨0, hi⟩ = s := rfl
        rw [hget, show (s :: S).zip (v :: V) = (s, v) :: S.zip V from rfl,
          lastAssoc_cons, lastAssoc_zip_not_mem S V s hs]
        simp
      | succ i =>
        have hi' : i < S.length := by simpa using hi
        have hget : (s :: S).get ⟨i + 1, hi⟩ = S.get ⟨i, hi'⟩ := rfl
        rw [hget, show (s :: S).zip (v :: V) = (s, v) :: S.zip V from rfl,
          lastAssoc_cons, ih V hnd' hlen' i hi']
        rfl

/-- C4 (amended): for a schema whose field names are pairwise distinct and a
value array of equal length, the parsed row maps the i-th field name to the
i-th value for every index i. -/
theorem parse_left_inverse_of_nodup (arr : List JValue) (fields : List String)
    (linenum : Nat) (linetype : String)
    (hlen : arr.length = fields.length) (hnd : fields.Nodup) :
    ∃ d, mapjsonlinetoassembblaobject arr fields linenum linetype = Except.ok d ∧
      ∀ i : Fin fields.length,
        pyLookup d (fields.get i)
          = some (arr.get ⟨i.val, by rw [hlen]; exact i.isLt⟩) := by
  refine ⟨pyDictFromPairs (fields.zip arr), ?_, ?_⟩
  · simp [mapjsonlinetoassembblaobject, hlen]
  · intro i
    rw [pyLookup_pyDictFromPairs]
    exact lastAssoc_zip_nodup fields arr hnd hlen i.val i.isLt

/-- C4 witness: the amended theorem applied at schema `["a","b"]` and values
`[1, 2]`. -/
theorem parse_left_inverse_witness :
    ∃ d, mapjsonlinetoassembblaobject [JValue.num 1, JValue.num 2] ["a", "b"] 5 "t"
        = Except.ok d ∧
      ∀ i : Fin (["a", "b"] : List String).length,
        pyLookup d ((["a", "b"] : List String).get i)
          = some (([JValue.num 1, JValue.num 2] : List JValue).get ⟨i.val, i.isLt⟩) :=
  parse_left_inverse_of_nodup [JValue.num 1, JValue.num 2] ["a", "b"] 5 "t"
    (by decide) (by decide)

/-- C4 counterexample: with the duplicated schema `["a","a"]` and values
`[1, 2]` the parsed dict does not map `S[0]` to `V[0]` — the last duplicate
wins — so the claim as stated (every index) fails. -/
theorem parse_left_inverse_cex :
    ∃ d, mapjsonlinetoassembblaobject [JValue.num 1, JValue.num 2] ["a", "a"] 5 "t"
        = Except.ok d ∧
      pyLookup d "a" = some (JValue.num 2) ∧ ¬ pyLookup d "a" = some (JValue.num 1) := by
  refine ⟨pyDictFromPairs ((["a", "a"] : List String).zip [JValue.num 1, JValue.num 2]),
    by simp [mapjsonlinetoassembblaobject], by decide, by decide⟩

/-- C5: a field-count mismatch makes row parsing return the fatal
`AssertionError` whose message carries the line number, the table name
(`linetype`) and the actual/expected field counts; in particular no dict is
ever produced for such a row. -/
theorem row_length_mismatch_fatal (arr : List JValue) (fields : List String)
    (linenum : Nat) (linetype : String)
    (h : arr.length ≠ fields.length) :
    mapjsonlinetoassembblaobject arr fields linenum linetype =
      Except.error (assertionFailMsg linenum arr.length fields.length linetype) := by
  simp [mapjsonlinetoassembblaobject, h]

/-- C5 witness: the spec scenario — 3 values against a 4-field schema on
line 9 of table `tickets` raises the structural error naming them. -/
theorem row_length_mismatch_witness :
    mapjsonlinetoassembblaobject [JValue.num 1, JValue.num 2, JValue.num 3]
        ["a", "b", "c", "d"] 9 "tickets" =
      Except.error
        "Assertion fail: tickets line [9] actual fields [3] != expected fields [4]" :=
  row_length_mismatch_fatal [JValue.num 1, JValue.num 2, JValue.num 3]
    ["a", "b", "c", "d"] 9 "tickets" (by decide)

/-!
## Python string primitives used by the line interpreter

`str.replace`, `str.split`, `str.strip` and the `in` test are embedded on
`List Char`.  `replace` and `split` scan left to right for non-overlapping
occurrences; they are fuelled by the input length, which is always enough
because every step consumes at least one character (the patterns used by the
interpreter — `"<table>, "`, `":fields, "`, `", ["` — are never empty).
-/

/-- One pass of Python `s.replace(pat, rep)`: replace every non-overlapping
occurrence of `pat`, scanning left to right. -/
def replAux (pat rep : List Char) : Nat → List Char → List Char
  | _, [] => []
  | 0, s => s
  | fuel + 1, c :: cs =>
    if pat.isPrefixOf (c :: cs) then
      rep ++ replAux pat rep fuel (cs.drop (pat.length - 1))
    else
      c :: replAux pat rep fuel cs

/-- Python `s.replace(pat, rep)`. -/
def pyReplace (s pat rep : String) : String :=
  ⟨replAux pat.data rep.data s.data.length s.data⟩

/-- Python `s.split(sep)` (on the character list, with an accumulator for
the current chunk). -/
def splitAux (sep : List Char) : Nat → List Char → List Char → List (List Char)
  | _, acc, [] => [acc]
  | 0, acc, s => [acc ++ s]
  | fuel + 1, acc, c :: cs =>
    if sep.isPrefixOf (c :: cs) && !sep.isEmpty then
      acc :: splitAux sep fuel [] (cs.drop (sep.length - 1))
    else
      splitAux sep fuel (acc ++ [c]) cs

/-- Python `s.split(sep)`. -/
def pySplit (s sep : String) : List String :=
  (splitAux sep.data s.data.length [] s.data).map (fun l => ⟨l⟩)

/-- Python `s.strip()` on the character list (whitespace on both ends). -/
def pyStripL (s : List Char) : List Char :=
  ((s.dropWhile Char.isWhitespace).reverse.dropWhile Char.isWhitespace).reverse

/-- Python `s.strip()`. -/
def pyStrip (s : String) : String :=
  ⟨pyStripL s.data⟩

/-- Python `pat in s` for strings: some occurrence of `pat` starts at some
position of `s`. -/
def hasOccur (pat : List Char) : List Char → Bool
  | [] => pat.isEmpty
  | c :: cs => pat.isPrefixOf (c :: cs) || hasOccur pat cs

/-- The string handed to `json.loads` for a data row (source line 164):
`line.replace(table + ', ', '').strip()`.  Note that `str.replace` removes
every occurrence of the pattern, not only the leading one. -/
def currentlineFor (line table : String) : String :=
  pyStrip (pyReplace line (table ++ ", ") "")

/-- Modelled from the spec words of C9: the payload is the line with only
its leading `"<table>, "` prefix removed (and stripped, as the code strips),
all later text passed unchanged. -/
def leadingStripOnly (line table : String) : String :=
  pyStrip ⟨line.data.drop (table ++ ", ").data.length⟩

theorem replAux_no_occur (pat rep : List Char) (fuel : Nat) (s : List Char)
    (hocc : hasOccur pat s = false) :
    replAux pat rep fuel s = s := by
  induction fuel generalizing s with
  | zero => cases s <;> rfl
  | succ fuel ih =>
    cases s with
    | nil => rfl
    | cons c cs =>
      rw [hasOccur, Bool.or_eq_false_iff] at hocc
      obtain ⟨h1, h2⟩ := hocc
      rw [show replAux pat rep (fuel + 1) (c :: cs)
          = if pat.isPrefixOf (c :: cs) then
              rep ++ replAux pat rep fuel (cs.drop (pat.length - 1))
            else c :: replAux pat rep fuel cs from rfl]
      rw [if_neg (by simp [h1]), ih cs h2]

theorem replAux_cancel_head (p0 : Char) (ps rest : List Char)
    (hocc : hasOccur (p0 :: ps) rest = false) :
    replAux (p0 :: ps) [] ((p0 :: ps) ++ rest).length ((p0 :: ps) ++ rest) = rest := by
  have hpre : (p0 :: ps).isPrefixOf ((p0 :: ps) ++ rest) = true :=
    List.isPrefixOf_iff_prefix.mpr (List.prefix_append _ _)
  have hlen : ((p0 :: ps) ++ rest).length = (ps ++ rest).length + 1 := by simp
  rw [hlen]
  rw [show replAux (p0 :: ps) [] ((ps ++ rest).length + 1) ((p0 :: ps) ++ rest)
      = if (p0 :: ps).isPrefixOf (p0 :: (ps ++ rest)) then
          [] ++ replAux (p0 :: ps) [] (ps ++ rest).length ((ps ++ rest).drop ((p0 :: ps).length - 1))
        else p0 :: replAux (p0 :: ps) [] (ps ++ rest).length (ps ++ rest) from rfl]
  rw [if_pos (by exact hpre)]
  have hdrop : (ps ++ rest).drop ((p0 :: ps).length - 1) = rest := by
    simp only [List.length_cons, Nat.add_sub_cancel]
    exact List.drop_left ps rest
  rw [hdrop, replAux_no_occur (p0 :: ps) [] (ps ++ rest).length rest hocc]
  rfl

/-- C9 (amended): when the text after the leading `"<table>, "` prefix
contains no further occurrence of that pattern, the payload handed to the
JSON parser is exactly the line with the leading prefix removed. -/
theorem currentlineFor_strips_only_head (table rest : String)
    (hocc : hasOccur (table ++ ", ").data rest.data = false) :
    currentlineFor (table ++ ", " ++ rest) table
      = leadingStripOnly (table ++ ", " ++ rest) table := by
  obtain ⟨p0, ps, hpat⟩ : ∃ p0 ps, (table ++ ", ").data = p0 :: ps := by
    cases h : (table ++ ", ").data with
    | nil =>
      exfalso
      have h2 : (table ++ ", ").data = table.data ++ [',', ' '] := by
        rw [String.data_append]
      rw [h] at h2
      exact absurd h2.symm (by simp)
    | cons a l => exact ⟨a, l, rfl⟩
  have hdata : (table ++ ", " ++ rest).data = (table ++ ", ").data ++ rest.data :=
    String.data_append _ _
  have hrepl : replAux (table ++ ", ").data ("" : String).data
      (table ++ ", " ++ rest).data.length (table ++ ", " ++ rest).data = rest.data := by
    rw [show ("" : String).data = [] from rfl, hdata, hpat]
    exact replAux_cancel_head p0 ps rest.data (by rw [← hpat]; exact hocc)
  have hdrop : (table ++ ", " ++ rest).data.drop (table ++ ", ").data.length = rest.data := by
    rw [hdata]
    exact List.drop_left _ _
  unfold currentlineFor leadingStripOnly pyReplace
  rw [hrepl, hdrop]

/-- C9 witness: the amended theorem at table `t` and payload `[0]`. -/
theorem currentlineFor_strips_only_head_witness :
    hasOccur ("t" ++ ", ").data ("[0]" : String).data = false ∧
      currentlineFor ("t" ++ ", " ++ "[0]") "t" = leadingStripOnly ("t" ++ ", " ++ "[0]") "t" :=
  ⟨by decide, currentlineFor_strips_only_head "t" "[0]" (by decide)⟩

/-- C9 counterexample: on the line `t, ["t, a"]` for table `t`, the payload
string handed to the JSON parser is `["a"]` — the second occurrence of
`"t, "` inside the quoted value was removed too — not the line with only
its leading prefix removed. -/
theorem currentlineFor_cex :
    currentlineFor "t, [\"t, a\"]" "t" = "[\"a\"]" ∧
      ¬ currentlineFor "t, [\"t, a\"]" "t" = leadingStripOnly "t, [\"t, a\"]" "t" := by
  constructor
  · decide
  · decide

/-!
## `filereadertoassemblaobjectgenerator` (source lines 127–167)

The per-line body is embedded as `processLine`, and the generator as a fold
`processLinesFrom` numbering lines from 0.  Inputs are the already-sanitised
lines (the source first does `line.rstrip()` and drops non-printable
characters; that normalisation is orthogonal to the claims and the embedding
receives its output).  `pF` / `pR` stand for `json.loads` applied to a schema
declaration / a data-row payload (an external library); `none` models a JSON
decode exception, which the script does not catch.
-/

/-- One parsed data row: (line number, raw line, table name, row dict). -/
abbrev ParsedRow := Nat × String × String × List (String × JValue)

/-- The literal log message of the undeclared-table branch.  The source
writes `logging.error("line #{linenum}: Table ... not defined before ...")`
WITHOUT an f-string prefix, so the braces are not interpolated; the literal
is reproduced faithfully (quotes and braces written as escapes). -/
def tableNotDefinedMsg : String :=
  "line #\x7blinenum\x7d: Table \x27\x7btable\x7d\x27 not defined before \x27\x7bline\x7d\x27"

/-- Log message of the too-many-`":fields, "`-separators branch. -/
def unexpectedFieldCountMsg (linenum : Nat) (line : String) : String :=
  "line #" ++ toString linenum ++ ": Unexpected field count in \x27" ++ line ++ "\x27"

/-- Log message of the not-a-table-entry branch. -/
def unexpectedSyntaxMsg (linenum : Nat) (line : String) : String :=
  "line #" ++ toString linenum ++ ": Unexpected syntax in \x27" ++ line ++ "\x27"

/-- Stand-in for the message of an uncaught `json.loads` decode exception
(the exact Python message is irrelevant to the claims). -/
def jsonDecodeErrorMsg (linenum : Nat) : String :=
  "json.loads failed at line " ++ toString linenum

/-- Embedding of the per-line body of the generator: classify the line as a
schema declaration, a data row, or a skipped line; returns the updated field
map, the yielded row (if any) and the emitted log messages, or a fatal
error. -/
def processLine (pF : String → Option (List String))
    (pR : String → Option (List JValue))
    (fm : List (String × List String)) (linenum : Nat) (line : String) :
    Except String ((List (String × List String)) × Option ParsedRow × List String) :=
  let fields := pySplit line ":fields, "
  if 2 < fields.length then
    Except.ok (fm, none, [unexpectedFieldCountMsg linenum line])
  else if 1 < fields.length then
    match pF (fields.getD 1 "") with
    | none => Except.error (jsonDecodeErrorMsg linenum)
    | some fl => Except.ok (pyInsert fm (fields.getD 0 "") fl, none, [])
  else
    let heading := pySplit line ", ["
    if heading.length < 2 then
      Except.ok (fm, none, [unexpectedSyntaxMsg linenum line])
    else
      let table := heading.getD 0 ""
      match pyLookup fm table with
      | none => Except.ok (fm, none, [tableNotDefinedMsg])
      | some fl =>
        match pR (currentlineFor line table) with
        | none => Except.error (jsonDecodeErrorMsg linenum)
        | some arr =>
          match mapjsonlinetoassembblaobject arr fl linenum table with
          | Except.error e => Except.error e
          | Except.ok row => Except.ok (fm, some (linenum, line, table, row), [])

/-- Fold of `processLine` over the remaining lines, threading the field map
and collecting rows and logs; a fatal error on any line aborts the whole
run (the script catches nothing). -/
def processLinesFrom (pF : String → Option (List String))
    (pR : String → Option (List JValue))
    (fm : List (String × List String)) (linenum : Nat) :
    List String →
      Except String ((List (String × List String)) × List ParsedRow × List String)
  | [] => Except.ok (fm, [], [])
  | line :: rest =>
    match processLine pF pR fm linenum line with
    | Except.error e => Except.error e
    | Except.ok (fm2, row, logs) =>
      match processLinesFrom pF pR fm2 (linenum + 1) rest with
      | Except.error e => Except.error e
      | Except.ok (fm3, rows, logs2) =>
        Except.ok (fm3, row.toList ++ rows, logs ++ logs2)

/-- Embedding of `filereadertoassemblaobjectgenerator`: interpret every
input line in order, starting with an empty field map. -/
def filereadertoassemblaobjectgenerator (pF : String → Option (List String))
    (pR : String → Option (List JValue)) (lines : List String) :
    Except String ((List (String × List String)) × List ParsedRow × List String) :=
  processLinesFrom pF pR [] 0 lines

/-- C8 (amended): a data-row line whose table has no declared schema is not
fatal — the interpreter logs an error, yields no row, leaves the field map
unchanged, and the run continues. -/
theorem undeclared_table_skipped (pF : String → Option (List String))
    (pR : String → Option (List JValue))
    (fm : List (String × List String)) (linenum : Nat) (line : String)
    (h1 : (pySplit line ":fields, ").length = 1)
    (h2 : 2 ≤ (pySplit line ", [").length)
    (h3 : pyLookup fm ((pySplit line ", [").getD 0 "") = none) :
    processLine pF pR fm linenum line = Except.ok (fm, none, [tableNotDefinedMsg]) := by
  simp only [processLine, h1]
  rw [if_neg (show ¬ 2 < 1 by omega), if_neg (show ¬ 1 < 1 by omega),
    if_neg (show ¬ (pySplit line ", [").length < 2 by omega), h3]

/-- C8 witness for the amended theorem: a data row for table `tbl` arriving
before any schema declaration is skipped with a log entry. -/
theorem undeclared_table_skipped_witness :
    processLine (fun _ => some ["a"]) (fun _ => some [JValue.num 1]) [] 7 "tbl, [1]"
      = Except.ok ([], none, [tableNotDefinedMsg]) :=
  undeclared_table_skipped (fun _ => some ["a"]) (fun _ => some [JValue.num 1])
    [] 7 "tbl, [1]" (by decide) (by decide) (by decide)

/-- C8 counterexample: a run whose first line references table `tbl` before
any schema declaration does NOT abort: it logs and skips that line, then
still processes the following schema declaration and yields the data row of
line 2 — refuting "fails with a structural (fatal) error, aborting the
run". -/
theorem undeclared_table_cex :
    filereadertoassemblaobjectgenerator (fun _ => some ["a"]) (fun _ => some [JValue.num 1])
        ["tbl, [1]", "tbl:fields, [\"a\"]", "tbl, [1]"] =
      Except.ok ([("tbl", ["a"])],
        [(2, "tbl, [1]", "tbl", [("a", JValue.num 1)])],
        [tableNotDefinedMsg]) := by
  rfl

/-!
## `genindex` (source lines 170–199)

The per-table body (lines 190–197) is embedded as `genindexTable`:

```python
ids = [k[key] for k in objects]
if len(ids) != len(set(ids)):
    logging.warning(f"Non unique id in table '{table}', {len(set(ids))} unique of {len(ids)} rows")
index[table] = {k[key]: k for k in objects}
```

`k[key]` raises `KeyError` when the key field is missing, and the dict
comprehension keeps the last row for a duplicated key.
-/

/-- Python `[k[key] for k in objects]`: the key value of every row, a
`KeyError` if some row lacks the key field. -/
def getKeys (key : String) : List (List (String × JValue)) → Option (List JValue)
  | [] => some []
  | o :: os =>
    match pyLookup o key with
    | none => none
    | some i =>
      match getKeys key os with
      | none => none
      | some is => some (i :: is)

/-- The duplicate-key warning (f-string of source line 194), with
`len(set(ids))` rendered as the number of distinct key values. -/
def nonUniqueIdMsg (table : String) (uniqueCount totalCount : Nat) : String :=
  "Non unique id in table \x27" ++ table ++ "\x27, " ++ toString uniqueCount ++
    " unique of " ++ toString totalCount ++ " rows"

/-- Embedding of the per-table body of `genindex`: collect key values, warn
when they are not unique, and build the key-indexed dict. -/
def genindexTable (table : String) (objects : List (List (String × JValue)))
    (key : String) :
    Except String (List String × List (JValue × List (String × JValue))) :=
  match getKeys key objects with
  | none => Except.error ("KeyError: " ++ key)
  | some ids =>
    let warns := if ids.length ≠ ids.dedup.length then
        [nonUniqueIdMsg table ids.dedup.length ids.length] else []
    Except.ok (warns, pyDictFromPairs (ids.zip objects))

/-- The last row of the table whose key field holds `κ`. -/
def lastRowWith (key : String) (κ : JValue) :
    List (List (String × JValue)) → Option (List (String × JValue))
  | [] => none
  | o :: os =>
    match lastRowWith key κ os with
    | some r => some r
    | none => if pyLookup o key = some κ then some o else none

theorem lastAssoc_zip_getKeys (key : String) (objects : List (List (String × JValue)))
    (ids : List JValue) (hids : getKeys key objects = some ids) (κ : JValue) :
    lastAssoc (ids.zip objects) κ = lastRowWith key κ objects := by
  induction objects generalizing ids with
  | nil =>
    simp only [getKeys, Option.some.injEq] at hids
    subst hids
    rfl
  | cons o os ih =>
    simp only [getKeys] at hids
    cases h1 : pyLookup o key with
    | none => rw [h1] at hids; exact absurd hids (by simp)
    | some i =>
      rw [h1] at hids
      cases h2 : getKeys key os with
      | none => rw [h2] at hids; exact absurd hids (by simp)
      | some is =>
        rw [h2] at hids
        have hids2 : ids = i :: is := by
          have := hids
          simpa using this.symm
        subst hids2
        rw [show (i :: is).zip (o :: os) = (i, o) :: is.zip os from rfl,
          lastAssoc_cons, ih is h2,
          show lastRowWith key κ (o :: os)
            = (match lastRowWith key κ os with
               | some r => some r
               | none => if pyLookup o key = some κ then some o else none) from rfl]
        cases hrest : lastRowWith key κ os with
        | some r => rfl
        | none =>
          show (if i = κ then some o else none)
            = if pyLookup o key = some κ then some o else none
          rw [h1]
          by_cases hiz : i = κ
          · subst hiz; simp
          · rw [if_neg hiz, if_neg (by simpa using hiz)]

theorem lastRowWith_eq_find_reverse (key : String) (κ : JValue)
    (objects : List (List (String × JValue))) :
    lastRowWith key κ objects
      = objects.reverse.find? (fun o => decide (pyLookup o key = some κ)) := by
  induction objects with
  | nil => rfl
  | cons o os ih =>
    rw [show lastRowWith key κ (o :: os)
        = (match lastRowWith key κ os with
           | some r => some r
           | none => if pyLookup o key = some κ then some o else none) from rfl,
      List.reverse_cons, List.find?_append, ih]
    cases hrest : os.reverse.find? (fun o => decide (pyLookup o key = some κ)) with
    | some r => simp
    | none =>
      by_cases h : pyLookup o key = some κ
      · simp [List.find?, h]
      · simp [List.find?, h]

theorem not_nodup_dedup_length {α : Type} [DecidableEq α] (l : List α)
    (h : ¬ l.Nodup) : l.length ≠ l.dedup.length := by
  intro heq
  exact h ((List.Sublist.eq_of_length (List.dedup_sublist l) heq.symm) ▸ List.nodup_dedup l)

/-- C7: duplicate key values in a table do not fail index construction: the
table is indexed successfully, exactly one warning carrying the number of
distinct key values and the total row count is emitted, and every key maps
to the last row of the table that carries it. -/
theorem genindex_duplicate_keys (table : String)
    (objects : List (List (String × JValue))) (key : String) (ids : List JValue)
    (hids : getKeys key objects = some ids) (hdup : ¬ ids.Nodup) :
    genindexTable table objects key =
        Except.ok ([nonUniqueIdMsg table ids.dedup.length ids.length],
          pyDictFromPairs (ids.zip objects)) ∧
      ∀ κ : JValue,
        pyLookup (pyDictFromPairs (ids.zip objects)) κ =
          objects.reverse.find? (fun o => decide (pyLookup o key = some κ)) := by
  constructor
  · simp only [genindexTable, hids]
    rw [if_pos (not_nodup_dedup_length ids hdup)]
  · intro κ
    rw [pyLookup_pyDictFromPairs, lastAssoc_zip_getKeys key objects ids hids κ,
      lastRowWith_eq_find_reverse]

/-- C7 witness: the spec scenario — id `42` twice in one table yields one
warning (`1 unique of 2 rows`) and an index mapping `42` to the second
occurrence. -/
theorem genindex_duplicate_keys_witness :
    genindexTable "tickets"
        [[("id", JValue.num 42), ("x", JValue.num 1)],
         [("id", JValue.num 42), ("x", JValue.num 2)]] "id" =
        Except.ok ([nonUniqueIdMsg "tickets"
            ([JValue.num 42, JValue.num 42] : List JValue).dedup.length
            ([JValue.num 42, JValue.num 42] : List JValue).length],
          pyDictFromPairs (([JValue.num 42, JValue.num 42] : List JValue).zip
            [[("id", JValue.num 42), ("x", JValue.num 1)],
             [("id", JValue.num 42), ("x", JValue.num 2)]])) ∧
      ∀ κ : JValue,
        pyLookup (pyDictFromPairs (([JValue.num 42, JValue.num 42] : List JValue).zip
            [[("id", JValue.num 42), ("x", JValue.num 1)],
             [("id", JValue.num 42), ("x", JValue.num 2)]])) κ =
          ([[("id", JValue.num 42), ("x", JValue.num 1)],
            [("id", JValue.num 42), ("x", JValue.num 2)]] :
              List (List (String × JValue))).reverse.find?
            (fun o => decide (pyLookup o "id" = some κ)) :=
  genindex_duplicate_keys "tickets"
    [[("id", JValue.num 42), ("x", JValue.num 1)],
     [("id", JValue.num 42), ("x", JValue.num 2)]] "id"
    [JValue.num 42, JValue.num 42] (by rfl) (by decide)

/-!
## `wikiparser` — enrichment pass over `wiki_pages` (source lines 232–257)

```python
wikitree = {}
for v in data['wiki_pages']:
    v['_parent_id'] = data.find('wiki_pages', v['parent_id'], None)
    v.setdefault('_children', [])
    v['_user_id'] = data.find('_users', v['user_id'])
    v['_created_at'] = datetime.fromisoformat(v['created_at'])
    v['_updated_at'] = datetime.fromisoformat(v['updated_at'])
    parent = v['parent_id']
    wikitree.setdefault(parent, [])
    wikitree[parent].append(v)
    if parent:
        parentobj = data.find('wiki_pages', parent)
        parentobj['_children'] = wikitree[parent]
        v['_level'] = parentobj.get('_level', 0) + 1
    else:
        v['_level'] = 0
```

The per-row `_level` attribute is embedded as an association list keyed by
page id (faithful whenever ids are unique, which the level theorems assume);
`wikitree` is a dict keyed by the raw `parent_id` value.  `data.find` with
no default raises `KeyError` for a missing key — `Except.error` here.
-/

/-- A `wiki_pages` row: the source fields read by the wiki pipeline, with
`created_at`/`updated_at` already as parsed timestamps and `level` the slot
for the enriched `_level` value carried by rows of the presentation order. -/
structure PageRow where
  id : JValue
  parent_id : JValue
  user_id : JValue
  position : Int
  status : Int
  page_name : String
  created_at : Nat
  updated_at : Nat
  level : Nat
deriving DecidableEq, Repr

/-- The self-index of `wiki_pages` (`data['_index']['wiki_pages']`, built by
`genindex`, so the last row wins for a duplicated id); `none` models a
missing key. -/
def findRowById (pages : List PageRow) (i : JValue) : Option PageRow :=
  pages.reverse.find? (fun p => decide (p.id = i))

/-- Accumulator of the enrichment loop: the `_level` values written so far
(keyed by page id) and the `wikitree` grouping keyed by raw `parent_id`. -/
structure WikiAcc where
  levels : List (JValue × Nat)
  wikitree : List (JValue × List PageRow)
deriving DecidableEq, Repr

/-- `wikitree.setdefault(parent, []); wikitree[parent].append(v)`. -/
def pyAppendGroup (tv : List (JValue × List PageRow)) (k : JValue) (v : PageRow) :
    List (JValue × List PageRow) :=
  pyInsert tv k ((pyLookup tv k).getD [] ++ [v])

/-- One iteration of the enrichment loop for row `v`: resolve the author
(`KeyError` when the user id is absent from the `_users` index), group the
row under its raw `parent_id`, and write `_level` — 0 for a falsy parent,
else the parent's current `_level` (default 0) plus one, after the hard
parent lookup of line 253.  (`v['_parent_id']` of line 236 uses a `None`
default, never fails, and is read by nothing modelled here.) -/
def wikiEnrichStep (users : List JValue) (pages : List PageRow)
    (acc : WikiAcc) (v : PageRow) : Except String WikiAcc :=
  if v.user_id ∈ users then
    let tree := pyAppendGroup acc.wikitree v.parent_id v
    if truthy v.parent_id then
      match findRowById pages v.parent_id with
      | none => Except.error "KeyError: wiki_pages"
      | some _ =>
        Except.ok
          ⟨pyInsert acc.levels v.id ((pyLookup acc.levels v.parent_id).getD 0 + 1), tree⟩
    else
      Except.ok ⟨pyInsert acc.levels v.id 0, tree⟩
  else
    Except.error "KeyError: _users"

/-- The enrichment loop over `wiki_pages` in file order. -/
def wikiEnrich (users : List JValue) (pages : List PageRow) : Except String WikiAcc :=
  pages.foldlM (wikiEnrichStep users pages) ⟨[], []⟩

/-- The `_level` map written by the enrichment loop. -/
def computeLevels (users : List JValue) (pages : List PageRow) :
    Except String (List (JValue × Nat)) :=
  (wikiEnrich users pages).map (fun acc => acc.levels)

/-- Pure recursion computing the `_level` map (the loop's effect on
`levels` when no lookup fails). -/
def levelsAux (acc : List (JValue × Nat)) : List PageRow → List (JValue × Nat)
  | [] => acc
  | v :: vs =>
    levelsAux
      (pyInsert acc v.id
        (if truthy v.parent_id then (pyLookup acc v.parent_id).getD 0 + 1 else 0)) vs

/-- Pure recursion computing the `wikitree` grouping. -/
def treeAux (acc : List (JValue × List PageRow)) : List PageRow → List (JValue × List PageRow)
  | [] => acc
  | v :: vs => treeAux (pyAppendGroup acc v.parent_id v) vs

/-- Unfolding equation for `levelsAux` on a cons cell. -/
theorem levelsAux_cons (acc : List (JValue × Nat)) (v : PageRow) (vs : List PageRow) :
    levelsAux acc (v :: vs) =
      levelsAux (pyInsert acc v.id
        (if truthy v.parent_id then (pyLookup acc v.parent_id).getD 0 + 1 else 0)) vs := rfl

/-- Unfolding equation for `treeAux` on a cons cell. -/
theorem treeAux_cons (acc : List (JValue × List PageRow)) (v : PageRow) (vs : List PageRow) :
    treeAux acc (v :: vs) = treeAux (pyAppendGroup acc v.parent_id v) vs := rfl

theorem foldlM_wikiEnrichStep_ok (users : List JValue) (pagesCtx : List PageRow)
    (rest : List PageRow) (acc : WikiAcc)
    (hu : ∀ v ∈ rest, v.user_id ∈ users)
    (hp : ∀ v ∈ rest, truthy v.parent_id = true →
      (findRowById pagesCtx v.parent_id).isSome) :
    rest.foldlM (wikiEnrichStep users pagesCtx) acc =
      Except.ok ⟨levelsAux acc.levels rest, treeAux acc.wikitree rest⟩ := by
  induction rest generalizing acc with
  | nil => rfl
  | cons v vs ih =>
    have hv : v.user_id ∈ users := hu v (List.mem_cons_self v vs)
    rw [List.foldlM_cons]
    cases htr : truthy v.parent_id with
    | false =>
      have hstep : wikiEnrichStep users pagesCtx acc v
          = Except.ok ⟨pyInsert acc.levels v.id 0, pyAppendGroup acc.wikitree v.parent_id v⟩ := by
        unfold wikiEnrichStep
        rw [if_pos hv, if_neg (by simp [htr])]
      have hlv : levelsAux acc.levels (v :: vs)
          = levelsAux (pyInsert acc.levels v.id 0) vs := by
        rw [levelsAux_cons, htr]
        simp
      rw [hstep, hlv, treeAux_cons]
      exact ih _ (fun w hw => hu w (List.mem_cons_of_mem v hw))
        (fun w hw => hp w (List.mem_cons_of_mem v hw))
    | true =>
      have hsome := hp v (List.mem_cons_self v vs) htr
      cases hf : findRowById pagesCtx v.parent_id with
      | none => rw [hf] at hsome; exact absurd hsome (by simp)
      | some w =>
        have hstep : wikiEnrichStep users pagesCtx acc v
            = Except.ok ⟨pyInsert acc.levels v.id ((pyLookup acc.levels v.parent_id).getD 0 + 1),
                pyAppendGroup acc.wikitree v.parent_id v⟩ := by
          unfold wikiEnrichStep
          rw [if_pos hv, if_pos (by simp [htr]), hf]
        have hlv : levelsAux acc.levels (v :: vs)
            = levelsAux (pyInsert acc.levels v.id
                ((pyLookup acc.levels v.parent_id).getD 0 + 1)) vs := by
          rw [levelsAux_cons, htr]
          simp
        rw [hstep, hlv, treeAux_cons]
        exact ih _ (fun w2 hw => hu w2 (List.mem_cons_of_mem v hw))
          (fun w2 hw => hp w2 (List.mem_cons_of_mem v hw))

theorem wikiEnrich_ok (users : List JValue) (pages : List PageRow)
    (hu : ∀ v ∈ pages, v.user_id ∈ users)
    (hp : ∀ v ∈ pages, truthy v.parent_id = true →
      (findRowById pages v.parent_id).isSome) :
    wikiEnrich users pages = Except.ok ⟨levelsAux [] pages, treeAux [] pages⟩ :=
  foldlM_wikiEnrichStep_ok users pages pages ⟨[], []⟩ hu hp

theorem levelsAux_append (acc : List (JValue × Nat)) (xs ys : List PageRow) :
    levelsAux acc (xs ++ ys) = levelsAux (levelsAux acc xs) ys := by
  induction xs generalizing acc with
  | nil => rfl
  | cons v vs ih => rw [List.cons_append, levelsAux_cons, levelsAux_cons, ih]

theorem pyLookup_levelsAux_not_mem (acc : List (JValue × Nat)) (rest : List PageRow)
    (k : JValue) (hk : ∀ v ∈ rest, ¬ v.id = k) :
    pyLookup (levelsAux acc rest) k = pyLookup acc k := by
  induction rest generalizing acc with
  | nil => rfl
  | cons v vs ih =>
    rw [levelsAux_cons, ih _ (fun w hw => hk w (List.mem_cons_of_mem v hw)),
      pyLookup_pyInsert,
      if_neg (fun he => hk v (List.mem_cons_self v vs) he.symm)]

/-- The `_level` value the enrichment loop writes for the row at index `i`
(reading the levels accumulated over the first `i` rows). -/
def stepLevel (pages : List PageRow) (i : Nat) : Nat :=
  match pages[i]? with
  | none => 0
  | some v =>
    if truthy v.parent_id then
      (pyLookup (levelsAux [] (pages.take i)) v.parent_id).getD 0 + 1
    else 0

theorem take_succ_get (pages : List PageRow) (i : Nat) (hi : i < pages.length) :
    pages.take (i + 1) = pages.take i ++ [pages.get ⟨i, hi⟩] := by
  rw [List.take_succ, List.getElem?_eq_getElem hi]
  rfl

theorem stepLevel_eq (pages : List PageRow) (i : Nat) (hi : i < pages.length) :
    stepLevel pages i =
      if truthy (pages.get ⟨i, hi⟩).parent_id then
        (pyLookup (levelsAux [] (pages.take i)) (pages.get ⟨i, hi⟩).parent_id).getD 0 + 1
      else 0 := by
  unfold stepLevel
  rw [List.getElem?_eq_getElem hi]
  rfl

theorem id_ne_of_drop_nodup (pages : List PageRow)
    (hnd : (pages.map (fun p => p.id)).Nodup)
    (i : Nat) (hi : i < pages.length)
    (v : PageRow) (hv : v ∈ pages.drop (i + 1)) :
    ¬ v.id = (pages.get ⟨i, hi⟩).id := by
  intro he
  have hsplit : pages = pages.take (i + 1) ++ pages.drop (i + 1) :=
    (List.take_append_drop _ _).symm
  have hnd2 : ((pages.take (i + 1)).map (fun p => p.id)
      ++ (pages.drop (i + 1)).map (fun p => p.id)).Nodup := by
    rw [← List.map_append, ← hsplit]
    exact hnd
  have hdisj := (List.nodup_append.mp hnd2).2.2
  have hmem1 : (pages.get ⟨i, hi⟩).id ∈ (pages.take (i + 1)).map (fun p => p.id) := by
    refine List.mem_map.mpr ⟨pages.get ⟨i, hi⟩, ?_, rfl⟩
    rw [take_succ_get pages i hi]
    exact List.mem_append_right _ (List.mem_singleton.mpr rfl)
  have hmem2 : (pages.get ⟨i, hi⟩).id ∈ (pages.drop (i + 1)).map (fun p => p.id) :=
    List.mem_map.mpr ⟨v, hv, he⟩
  exact hdisj hmem1 hmem2

theorem pyLookup_levelsAux_take (pages : List PageRow)
    (hnd : (pages.map (fun p => p.id)).Nodup)
    (i k : Nat) (hi : i < pages.length) (hik : i < k) (hk : k ≤ pages.length) :
    pyLookup (levelsAux [] (pages.take k)) (pages.get ⟨i, hi⟩).id
      = some (stepLevel pages i) := by
  have hsplit : pages.take k
      = pages.take (i + 1) ++ (pages.drop (i + 1)).take (k - (i + 1)) := by
    rw [← List.take_add]
    congr 1
    omega
  rw [hsplit, levelsAux_append,
    pyLookup_levelsAux_not_mem _ _ _
      (fun v hv => id_ne_of_drop_nodup pages hnd i hi v (List.mem_of_mem_take hv)),
    take_succ_get pages i hi, levelsAux_append]
  rw [show levelsAux (levelsAux [] (pages.take i)) [pages.get ⟨i, hi⟩]
      = pyInsert (levelsAux [] (pages.take i)) (pages.get ⟨i, hi⟩).id
          (if truthy (pages.get ⟨i, hi⟩).parent_id then
            (pyLookup (levelsAux [] (pages.take i)) (pages.get ⟨i, hi⟩).parent_id).getD 0 + 1
          else 0) from rfl]
  rw [pyLookup_pyInsert, if_pos rfl, stepLevel_eq pages i hi]

/-- Every row with a truthy parent pointer has a row carrying that id
strictly earlier in the input order. -/
def ParentsFirst (pages : List PageRow) : Prop :=
  ∀ j : Fin pages.length, truthy (pages.get j).parent_id = true →
    ∃ i : Fin pages.length, i.val < j.val ∧ (pages.get i).id = (pages.get j).parent_id

instance (pages : List PageRow) : Decidable (ParentsFirst pages) := by
  unfold ParentsFirst
  infer_instance

/-- C2 (amended): when page ids are unique and every row's parent appears
strictly earlier in the input order, the `_level` map written by the
enrichment pass satisfies the tree level invariant: a row with a falsy
parent pointer gets level 0, and any other row gets its parent's (final)
level plus one. -/
theorem wiki_levels_invariant (users : List JValue) (pages : List PageRow)
    (hu : ∀ v ∈ pages, v.user_id ∈ users)
    (hnd : (pages.map (fun p => p.id)).Nodup)
    (hpf : ParentsFirst pages) :
    ∃ L, computeLevels users pages = Except.ok L ∧
      ∀ j : Fin pages.length,
        (truthy (pages.get j).parent_id = false →
          pyLookup L (pages.get j).id = some 0) ∧
        (truthy (pages.get j).parent_id = true →
          ∃ lp, pyLookup L (pages.get j).parent_id = some lp ∧
            pyLookup L (pages.get j).id = some (lp + 1)) := by
  have hp : ∀ v ∈ pages, truthy v.parent_id = true →
      (findRowById pages v.parent_id).isSome := by
    intro v hv htr
    obtain ⟨j, hj⟩ := List.mem_iff_get.mp hv
    obtain ⟨i, _, hid⟩ := hpf j (by rw [hj]; exact htr)
    rw [findRowById, List.find?_isSome]
    refine ⟨pages.get i, List.mem_reverse.mpr (pages.get_mem _ _), ?_⟩
    rw [hj] at hid
    simp only [decide_eq_true_eq]
    exact hid
  have hfinal : ∀ (i : Nat) (hi : i < pages.length),
      pyLookup (levelsAux [] pages) (pages.get ⟨i, hi⟩).id = some (stepLevel pages i) := by
    intro i hi
    have := pyLookup_levelsAux_take pages hnd i pages.length hi hi (Nat.le_refl _)
    rw [List.take_length] at this
    exact this
  refine ⟨levelsAux [] pages, ?_, ?_⟩
  · rw [computeLevels, wikiEnrich_ok users pages hu hp]
    rfl
  · intro j
    constructor
    · intro htr
      have h1 := hfinal j.val j.isLt
      rw [stepLevel_eq pages j.val j.isLt] at h1
      rw [show pages.get ⟨j.val, j.isLt⟩ = pages.get j from rfl] at h1
      rw [htr] at h1
      simpa using h1
    · intro htr
      obtain ⟨i, hij, hid⟩ := hpf j htr
      refine ⟨stepLevel pages i.val, ?_, ?_⟩
      · rw [← hid]
        have := hfinal i.val i.isLt
        rw [show pages.get ⟨i.val, i.isLt⟩ = pages.get i from rfl] at this
        exact this
      · have h1 := hfinal j.val j.isLt
        rw [stepLevel_eq pages j.val j.isLt] at h1
        rw [show pages.get ⟨j.val, j.isLt⟩ = pages.get j from rfl] at h1
        rw [htr] at h1
        have h2 : pyLookup (levelsAux [] (pages.take j.val)) (pages.get j).parent_id
            = some (stepLevel pages i.val) := by
          rw [← hid]
          have := pyLookup_levelsAux_take pages hnd i.val j.val i.isLt hij
            (Nat.le_of_lt j.isLt)
          rw [show pages.get ⟨i.val, i.isLt⟩ = pages.get i from rfl] at this
          exact this
        rw [h2] at h1
        simpa using h1

/-- Demo root row (id 1, no parent) for the C2 witness. -/
def wRoot : PageRow := ⟨JValue.num 1, JValue.null, JValue.str "u", 0, 1, "Root", 0, 0, 0⟩

/-- Demo child row (id 2, parent 1) for the C2 witness. -/
def wChild : PageRow := ⟨JValue.num 2, JValue.num 1, JValue.str "u", 0, 1, "Child", 0, 0, 0⟩

/-- C2 witness: the amended theorem at the spec scenario — node 2 a child of
node 1, parent first in file order. -/
theorem wiki_levels_invariant_witness :
    ∃ L, computeLevels [JValue.str "u"] [wRoot, wChild] = Except.ok L ∧
      ∀ j : Fin ([wRoot, wChild] : List PageRow).length,
        (truthy (([wRoot, wChild] : List PageRow).get j).parent_id = false →
          pyLookup L (([wRoot, wChild] : List PageRow).get j).id = some 0) ∧
        (truthy (([wRoot, wChild] : List PageRow).get j).parent_id = true →
          ∃ lp, pyLookup L (([wRoot, wChild] : List PageRow).get j).parent_id = some lp ∧
            pyLookup L (([wRoot, wChild] : List PageRow).get j).id = some (lp + 1)) :=
  wiki_levels_invariant [JValue.str "u"] [wRoot, wChild]
    (by decide) (by decide) (by decide)

/-- Grandparent row (id 1, no parent) of the C2 counterexample. -/
def cexA : PageRow := ⟨JValue.num 1, JValue.null, JValue.str "u", 0, 1, "A", 0, 0, 0⟩

/-- Grandchild row (id 3, parent 2) of the C2 counterexample — it appears
BEFORE its parent row. -/
def cexC : PageRow := ⟨JValue.num 3, JValue.num 2, JValue.str "u", 0, 1, "C", 0, 0, 0⟩

/-- Middle row (id 2, parent 1) of the C2 counterexample. -/
def cexB : PageRow := ⟨JValue.num 2, JValue.num 1, JValue.str "u", 0, 1, "B", 0, 0, 0⟩

/-- C2 counterexample: with input order [id 1 root, id 3 (parent 2),
id 2 (parent 1)] — a parent row after its child row — the pass completes
with level(3) = 1 and level(2) = 1, violating the claimed invariant
`level(node) = level(parent) + 1` (which would require level(3) = 2).  So
the invariant does NOT hold for every input ordering. -/
theorem wiki_levels_cex :
    computeLevels [JValue.str "u"] [cexA, cexC, cexB] =
        Except.ok [(JValue.num 1, 0), (JValue.num 3, 1), (JValue.num 2, 1)] ∧
      truthy cexC.parent_id = true ∧
      ¬ pyLookup [(JValue.num 1, 0), (JValue.num 3, 1), (JValue.num 2, 1)] cexC.id
        = some ((pyLookup [(JValue.num 1, 0), (JValue.num 3, 1), (JValue.num 2, 1)]
            cexC.parent_id).getD 0 + 1) :=
  ⟨by rfl, by decide, by decide⟩

/-!
## `wikiparser` — traversal and return (source lines 302–309)

```python
def _wikitraverse(tree):
    for v in sorted(tree, key=lambda v: v['position']):
        yield v
        if '_children' in v:
            yield from _wikitraverse(v['_children'])

return list(_wikitraverse(wikitree[None]))
```
-/

/-- The `'_children'` list of an enriched row: the `wikitree` group keyed by
the row's id.  (`parentobj['_children'] = wikitree[parent]` aliases the
group; the assignment runs only in the truthy-parent branch, so a row whose
own id is falsy keeps the `setdefault`-empty list even though a group under
that falsy key may exist.) -/
def childrenOf (tree : List (JValue × List PageRow)) (v : PageRow) : List PageRow :=
  if truthy v.id then (pyLookup tree v.id).getD [] else []

/-- The relation of `sorted(tree, key=lambda v: v['position'])`. -/
def posRowLe (a b : PageRow) : Prop := a.position ≤ b.position

instance : DecidableRel posRowLe :=
  fun a b => inferInstanceAs (Decidable (a.position ≤ b.position))

instance : IsTotal PageRow posRowLe := ⟨fun a b => Int.le_total a.position b.position⟩

instance : IsTrans PageRow posRowLe := ⟨fun _ _ _ => Int.le_trans⟩

/-- Python's stable `sorted(group, key=lambda v: v['position'])`, embedded
as insertion sort (any stable sort by a total preorder computes the same
list). -/
def sortByPosition (l : List PageRow) : List PageRow :=
  List.insertionSort posRowLe l

/-- `_wikitraverse` on the `wikitree` group structure: visit a sibling group
sorted by `position`, yielding each row and then recursing into its
`'_children'` group.  The recursion is fuelled: the generator descends one
tree level per call, and on the acyclic inputs the script terminates on the
depth never exceeds the number of rows, so the `pages.length + 1` fuel at
the call site is exact. -/
def groupTraverse (tree : List (JValue × List PageRow)) :
    Nat → List PageRow → List PageRow
  | 0, _ => []
  | fuel + 1, group =>
    (sortByPosition group).flatMap
      (fun v => v :: groupTraverse tree fuel (childrenOf tree v))

/-- Embedding of `wikiparser`'s returned value: run the enrichment loop over
`wiki_pages`, then traverse from the root group — `wikitree[None]`, a hard
`KeyError` when no row had a `None` parent (line 309).  (The
`wiki_page_versions` enrichment of lines 284–297 touches only the versions
table, not the value returned here; enriched versions are modelled as the
inputs of `wikicommitgenerator`.) -/
def wikiparser (users : List JValue) (pages : List PageRow) :
    Except String (List PageRow) :=
  match wikiEnrich users pages with
  | Except.error e => Except.error e
  | Except.ok acc =>
    match pyLookup acc.wikitree JValue.null with
    | none => Except.error "KeyError: None"
    | some roots => Except.ok (groupTraverse acc.wikitree (pages.length + 1) roots)

theorem pyLookup_treeAux_none (acc : List (JValue × List PageRow)) (rest : List PageRow)
    (k : JValue) (hacc : pyLookup acc k = none)
    (hrest : ∀ v ∈ rest, ¬ v.parent_id = k) :
    pyLookup (treeAux acc rest) k = none := by
  induction rest generalizing acc with
  | nil => exact hacc
  | cons v vs ih =>
    rw [treeAux_cons]
    refine ih _ ?_ (fun w hw => hrest w (List.mem_cons_of_mem v hw))
    rw [pyAppendGroup, pyLookup_pyInsert,
      if_neg (fun he => hrest v (List.mem_cons_self v vs) he.symm)]
    exact hacc

theorem wikiEnrichStep_tree (users : List JValue) (pagesCtx : List PageRow)
    (acc acc2 : WikiAcc) (v : PageRow)
    (h : wikiEnrichStep users pagesCtx acc v = Except.ok acc2) :
    acc2.wikitree = pyAppendGroup acc.wikitree v.parent_id v := by
  unfold wikiEnrichStep at h
  by_cases hu : v.user_id ∈ users
  · rw [if_pos hu] at h
    by_cases ht : truthy v.parent_id
    · rw [if_pos ht] at h
      cases hf : findRowById pagesCtx v.parent_id with
      | none => rw [hf] at h; exact Except.noConfusion h
      | some w =>
        rw [hf] at h
        cases h
        rfl
    · rw [if_neg ht] at h
      cases h
      rfl
  · rw [if_neg hu] at h
    exact Except.noConfusion h

theorem foldlM_wikiEnrichStep_tree (users : List JValue) (pagesCtx : List PageRow)
    (rest : List PageRow) :
    ∀ (acc out : WikiAcc),
      rest.foldlM (wikiEnrichStep users pagesCtx) acc = Except.ok out →
      out.wikitree = treeAux acc.wikitree rest := by
  induction rest with
  | nil =>
    intro acc out h
    have h2 : (Except.ok acc : Except String WikiAcc) = Except.ok out := h
    injection h2 with h3
    rw [← h3]
    rfl
  | cons v vs ih =>
    intro acc out h
    rw [List.foldlM_cons] at h
    cases hstep : wikiEnrichStep users pagesCtx acc v with
    | error e =>
      rw [hstep] at h
      exact Except.noConfusion (show (Except.error e : Except String WikiAcc)
        = Except.ok out from h)
    | ok acc2 =>
      rw [hstep] at h
      have h2 : vs.foldlM (wikiEnrichStep users pagesCtx) acc2 = Except.ok out := h
      rw [ih acc2 out h2, wikiEnrichStep_tree users pagesCtx acc acc2 v hstep, treeAux_cons]

/-- C10: a non-empty `wiki_pages` table in which every row has a truthy
parent pointer makes `wikiparser` fail with a hard lookup error — the
sentinel root group `wikitree[None]` is missing (or, if some parent id
cannot be resolved, the enrichment lookup fails first).  It never returns a
traversal, in particular not an empty one. -/
theorem wikiparser_no_root_fails (users : List JValue) (pages : List PageRow)
    (hne : pages ≠ [])
    (hall : ∀ v ∈ pages, truthy v.parent_id = true) :
    (wikiparser users pages).isOk = false := by
  unfold wikiparser
  cases he : wikiEnrich users pages with
  | error e => rfl
  | ok acc =>
    have htree : acc.wikitree = treeAux [] pages :=
      foldlM_wikiEnrichStep_tree users pages pages ⟨[], []⟩ acc he
    have hnone : pyLookup acc.wikitree JValue.null = none := by
      rw [htree]
      refine pyLookup_treeAux_none [] pages JValue.null rfl ?_
      intro v hv he2
      have h3 := hall v hv
      rw [he2] at h3
      exact absurd h3 (by decide)
    show (match pyLookup acc.wikitree JValue.null with
      | none => Except.error "KeyError: None"
      | some roots =>
        Except.ok (groupTraverse acc.wikitree (pages.length + 1) roots)).isOk = false
    rw [hnone]
    rfl

/-- Demo row 1 of the C10 witness: id 1 with parent 2. -/
def cyc1 : PageRow := ⟨JValue.num 1, JValue.num 2, JValue.str "u", 0, 1, "P1", 0, 0, 0⟩

/-- Demo row 2 of the C10 witness: id 2 with parent 1. -/
def cyc2 : PageRow := ⟨JValue.num 2, JValue.num 1, JValue.str "u", 0, 1, "P2", 0, 0, 0⟩

/-- C10 witness: a two-row table where each row is the other's parent (all
parent pointers truthy and resolvable, no root) makes `wikiparser` fail. -/
theorem wikiparser_no_root_fails_witness :
    (wikiparser [JValue.str "u"] [cyc1, cyc2]).isOk = false :=
  wikiparser_no_root_fails [JValue.str "u"] [cyc1, cyc2] (by decide) (by decide)

/-!
## `_wikitraverse` as a pre-order traversal of the document forest (C3)

By traversal time every `'_children'` list is fully populated (the groups
grow by reference while the loop runs), so the forest is modelled with the
children lists materialised inside an inductive tree.  `wikitraverse` then
mirrors `_wikitraverse` literally: visit the siblings sorted ascending by
`position`, yield each node's row, then recurse into its children before
moving to the next sibling.
-/

/-- A document node together with its fully-populated ordered children. -/
inductive WTree where
  | node : PageRow → List WTree → WTree

/-- The row at the root of a tree. -/
def WTree.val : WTree → PageRow
  | WTree.node v _ => v

/-- The children forest of a tree. -/
def WTree.children : WTree → List WTree
  | WTree.node _ cs => cs

/-- The relation of `sorted(tree, key=lambda v: v['position'])` on trees. -/
def posTreeLe (a b : WTree) : Prop := a.val.position ≤ b.val.position

instance : DecidableRel posTreeLe :=
  fun a b => inferInstanceAs (Decidable (a.val.position ≤ b.val.position))

instance : IsTotal WTree posTreeLe :=
  ⟨fun a b => Int.le_total a.val.position b.val.position⟩

instance : IsTrans WTree posTreeLe := ⟨fun _ _ _ => Int.le_trans⟩

/-- Python's stable `sorted(tree, key=lambda v: v['position'])`. -/
def sortForestByPos (l : List WTree) : List WTree :=
  List.insertionSort posTreeLe l

theorem sizeOf_children_lt (t : WTree) : sizeOf t.children < sizeOf t := by
  cases t with
  | node v cs =>
    show sizeOf cs < sizeOf (WTree.node v cs)
    rw [WTree.node.sizeOf_spec]
    omega

theorem mem_sortForestByPos {t : WTree} {l : List WTree}
    (h : t ∈ sortForestByPos l) : t ∈ l :=
  (List.perm_insertionSort posTreeLe l).mem_iff.mp h

/-- Embedding of `_wikitraverse`: for each sibling, in ascending `position`
order, yield its row and then recurse into its children. -/
def wikitraverse (ts : List WTree) : List PageRow :=
  (sortForestByPos ts).attach.flatMap
    (fun x => x.1.val :: wikitraverse x.1.children)
termination_by sizeOf ts
decreasing_by
  have h1 : sizeOf x.1 < sizeOf ts := List.sizeOf_lt_of_mem (mem_sortForestByPos x.2)
  have h2 := sizeOf_children_lt x.1
  omega

theorem wikitraverse_eq (ts : List WTree) :
    wikitraverse ts
      = (sortForestByPos ts).flatMap (fun t => t.val :: wikitraverse t.children) := by
  rw [wikitraverse]
  simp [List.flatMap]

mutual
/-- Modelled from the spec words: the classic pre-order listing of one tree
— the node itself, then the listings of its subtrees in order. -/
def preorderT : WTree → List PageRow
  | WTree.node v cs => v :: preorderF cs
/-- Pre-order listing of a forest: each tree's subtree block in order. -/
def preorderF : List WTree → List PageRow
  | [] => []
  | t :: ts => preorderT t ++ preorderF ts
end

mutual
/-- Sort every sibling list of a tree ascending by `position` (spec-side
"deterministic sibling order"). -/
def sortTree : WTree → WTree
  | WTree.node v cs => WTree.node v (sortForestByPos (sortMap cs))
/-- `sortTree` mapped over a forest. -/
def sortMap : List WTree → List WTree
  | [] => []
  | t :: ts => sortTree t :: sortMap ts
end

/-- The spec's deterministic forest: the top-level siblings and every nested
sibling list sorted ascending by `position`. -/
def sortForest (ts : List WTree) : List WTree :=
  sortForestByPos (sortMap ts)

mutual
/-- All rows of one tree, in no particular order (node then children). -/
def allNodesT : WTree → List PageRow
  | WTree.node v cs => v :: allNodesF cs
/-- All rows of a forest. -/
def allNodesF : List WTree → List PageRow
  | [] => []
  | t :: ts => allNodesT t ++ allNodesF ts
end

theorem sortTree_val (t : WTree) : (sortTree t).val = t.val := by
  cases t
  rfl

theorem sortTree_children (t : WTree) : (sortTree t).children = sortForest t.children := by
  cases t
  rfl

theorem allNodesT_eq (t : WTree) : allNodesT t = t.val :: allNodesF t.children := by
  cases t
  rfl

theorem preorderT_sortTree (t : WTree) :
    preorderT (sortTree t) = t.val :: preorderF (sortForest t.children) := by
  cases t
  rfl

theorem sortMap_eq_map (l : List WTree) : sortMap l = l.map sortTree := by
  induction l with
  | nil => rfl
  | cons t l ih =>
    rw [show sortMap (t :: l) = sortTree t :: sortMap l from rfl, ih, List.map_cons]

theorem orderedInsert_sortMap (a : WTree) (l : List WTree) :
    List.orderedInsert posTreeLe (sortTree a) (sortMap l)
      = sortMap (List.orderedInsert posTreeLe a l) := by
  induction l with
  | nil => rfl
  | cons b l ih =>
    rw [show sortMap (b :: l) = sortTree b :: sortMap l from rfl,
      show List.orderedInsert posTreeLe (sortTree a) (sortTree b :: sortMap l)
        = if posTreeLe (sortTree a) (sortTree b) then
            sortTree a :: sortTree b :: sortMap l
          else sortTree b :: List.orderedInsert posTreeLe (sortTree a) (sortMap l) from rfl,
      show List.orderedInsert posTreeLe a (b :: l)
        = if posTreeLe a b then a :: b :: l
          else b :: List.orderedInsert posTreeLe a l from rfl]
    by_cases h : posTreeLe a b
    · have h2 : posTreeLe (sortTree a) (sortTree b) := by
        unfold posTreeLe at h ⊢
        rw [sortTree_val, sortTree_val]
        exact h
      rw [if_pos h2, if_pos h]
      rfl
    · have h2 : ¬ posTreeLe (sortTree a) (sortTree b) := by
        unfold posTreeLe at h ⊢
        rw [sortTree_val, sortTree_val]
        exact h
      rw [if_neg h2, if_neg h, ih]
      rfl

theorem sortForestByPos_sortMap (l : List WTree) :
    sortForestByPos (sortMap l) = sortMap (sortForestByPos l) := by
  induction l with
  | nil => rfl
  | cons t l ih =>
    rw [show sortMap (t :: l) = sortTree t :: sortMap l from rfl,
      show sortForestByPos (sortTree t :: sortMap l)
        = List.orderedInsert posTreeLe (sortTree t) (sortForestByPos (sortMap l)) from rfl,
      ih, orderedInsert_sortMap]
    rfl

theorem flatMap_preorder (l : List WTree)
    (h : ∀ t ∈ l, wikitraverse t.children = preorderF (sortForest t.children)) :
    (l.flatMap (fun t => t.val :: wikitraverse t.children)) = preorderF (sortMap l) := by
  induction l with
  | nil => rfl
  | cons t l ih =>
    rw [List.flatMap_cons,
      show sortMap (t :: l) = sortTree t :: sortMap l from rfl,
      show preorderF (sortTree t :: sortMap l)
        = preorderT (sortTree t) ++ preorderF (sortMap l) from rfl,
      preorderT_sortTree,
      h t (List.mem_cons_self t l),
      ih (fun w hw => h w (List.mem_cons_of_mem t hw))]

theorem wikitraverse_eq_preorder_aux :
    ∀ (n : Nat) (ts : List WTree), sizeOf ts ≤ n →
      wikitraverse ts = preorderF (sortForest ts) := by
  intro n
  induction n with
  | zero =>
    intro ts h
    cases ts with
    | nil =>
      rw [wikitraverse_eq]
      rfl
    | cons t ts =>
      exfalso
      rw [List.cons.sizeOf_spec] at h
      omega
  | succ n ih =>
    intro ts hts
    rw [wikitraverse_eq, sortForest, sortForestByPos_sortMap]
    refine flatMap_preorder (sortForestByPos ts) ?_
    intro t ht
    have h1 : sizeOf t < sizeOf ts := List.sizeOf_lt_of_mem (mem_sortForestByPos ht)
    have h2 := sizeOf_children_lt t
    exact ih t.children (by omega)

theorem preorderF_perm_of_perm {l l2 : List WTree} (h : l.Perm l2) :
    (preorderF l).Perm (preorderF l2) := by
  induction h with
  | nil => exact List.Perm.refl _
  | cons x _ ih => exact List.Perm.append_left (preorderT x) ih
  | swap x y l =>
    show (preorderT y ++ (preorderT x ++ preorderF l)).Perm
      (preorderT x ++ (preorderT y ++ preorderF l))
    rw [← List.append_assoc, ← List.append_assoc]
    exact List.Perm.append_right (preorderF l) List.perm_append_comm
  | trans _ _ ih1 ih2 => exact ih1.trans ih2

theorem preorderF_sortMap_perm (l : List WTree)
    (h : ∀ t ∈ l, (preorderF (sortForest t.children)).Perm (allNodesF t.children)) :
    (preorderF (sortMap l)).Perm (allNodesF l) := by
  induction l with
  | nil => exact List.Perm.refl _
  | cons t l ih =>
    show (preorderT (sortTree t) ++ preorderF (sortMap l)).Perm (allNodesT t ++ allNodesF l)
    rw [preorderT_sortTree, allNodesT_eq, List.cons_append, List.cons_append]
    exact List.Perm.cons _ (List.Perm.append (h t (List.mem_cons_self t l))
      (ih (fun w hw => h w (List.mem_cons_of_mem t hw))))

theorem preorder_sortForest_perm_aux :
    ∀ (n : Nat) (ts : List WTree), sizeOf ts ≤ n →
      (preorderF (sortForest ts)).Perm (allNodesF ts) := by
  intro n
  induction n with
  | zero =>
    intro ts h
    cases ts with
    | nil => exact List.Perm.refl _
    | cons t ts =>
      exfalso
      rw [List.cons.sizeOf_spec] at h
      omega
  | succ n ih =>
    intro ts hts
    have hperm : (preorderF (sortForest ts)).Perm (preorderF (sortMap ts)) := by
      rw [sortForest]
      exact preorderF_perm_of_perm (List.perm_insertionSort posTreeLe (sortMap ts))
    refine hperm.trans ?_
    refine preorderF_sortMap_perm ts ?_
    intro t ht
    have h1 : sizeOf t < sizeOf ts := List.sizeOf_lt_of_mem ht
    have h2 := sizeOf_children_lt t
    exact ih t.children (by omega)

/-- Every sibling list of the forest — at every depth — is pairwise ordered
by `position`. -/
def forestSiblingsSorted (ts : List WTree) : Prop :=
  List.Pairwise posTreeLe ts ∧ ∀ t ∈ ts, forestSiblingsSorted t.children
termination_by sizeOf ts
decreasing_by
  have h1 : sizeOf t < sizeOf ts := List.sizeOf_lt_of_mem (by assumption)
  have h2 := sizeOf_children_lt t
  omega

theorem forestSiblingsSorted_sortForest_aux :
    ∀ (n : Nat) (ts : List WTree), sizeOf ts ≤ n →
      forestSiblingsSorted (sortForest ts) := by
  intro n
  induction n with
  | zero =>
    intro ts h
    cases ts with
    | nil =>
      rw [forestSiblingsSorted]
      exact ⟨List.Pairwise.nil, fun t ht => absurd ht (List.not_mem_nil t)⟩
    | cons t ts =>
      exfalso
      rw [List.cons.sizeOf_spec] at h
      omega
  | succ n ih =>
    intro ts hts
    rw [forestSiblingsSorted]
    constructor
    · exact List.sorted_insertionSort posTreeLe (sortMap ts)
    · intro t ht
      have ht2 : t ∈ sortMap ts := mem_sortForestByPos ht
      rw [sortMap_eq_map] at ht2
      obtain ⟨u, hu, hut⟩ := List.mem_map.mp ht2
      have h1 : sizeOf u < sizeOf ts := List.sizeOf_lt_of_mem hu
      have h2 := sizeOf_children_lt u
      rw [← hut, sortTree_children]
      exact ih u.children (by omega)

/-- C3: the flat sequence produced by `_wikitraverse` is exactly the
pre-order listing of the deterministically sorted forest (every node is
immediately followed by its whole subtree, before the next sibling's
subtree), it contains each node of the forest exactly once, and in the
sorted forest every sibling list — at every depth — is ascending in
`position`. -/
theorem wikitraverse_preorder (ts : List WTree) :
    wikitraverse ts = preorderF (sortForest ts) ∧
      (wikitraverse ts).Perm (allNodesF ts) ∧
      forestSiblingsSorted (sortForest ts) := by
  have h1 := wikitraverse_eq_preorder_aux (sizeOf ts) ts (Nat.le_refl _)
  refine ⟨h1, ?_, forestSiblingsSorted_sortForest_aux (sizeOf ts) ts (Nat.le_refl _)⟩
  rw [h1]
  exact preorder_sortForest_perm_aux (sizeOf ts) ts (Nat.le_refl _)

/-!
## `wikicommitgenerator`, `getwikiblob`, `wikiindexproducer`
   (source lines 312–357)

```python
for v in sorted(wikiversions, key=lambda v: v['_updated_at']):
    p = v['_wiki_page_id']
    now = v['_updated_at']
    indexpages = filter(lambda w: w['_created_at'] <= now and w['status'] == 1, order)
    fname = p['page_name'] + '.md'
    author = v['_user_id']
    yield {
        'name': p['page_name'] + ':' + str(v['version']),
        'files': {'_Sidebar.md': wikiindexproducer(indexpages), fname: getwikiblob(v)},
        'author_name': author.get('name', author.get('id')),
        'author_email': author.get('email', 'none@localhost'),
        'date': now,
        'message': v['change_comment'] or '',
    }
```
-/

/-- A user record of the `_users` index (`scrapeusers` guarantees `id`;
`name` and `email` may be absent). -/
structure UserRow where
  id : String
  name : Option String
  email : Option String
deriving DecidableEq, Repr

/-- An enriched `wiki_page_versions` row as `wikicommitgenerator` reads it:
the resolved page (`_wiki_page_id`), the revision number, the parsed
`_updated_at` timestamp, the resolved author (`_user_id`) and the change
comment.  (`_blob_id` and `_created_at` are enriched by `wikiparser` but
never read by the generator.) -/
structure WikiVersion where
  wiki_page : PageRow
  version : Nat
  updated_at : Nat
  author : UserRow
  change_comment : Option String
deriving DecidableEq, Repr

/-- One replay event: the dict yielded by `wikicommitgenerator`. -/
structure ReplayEvent where
  name : String
  files : List (String × String)
  author_name : String
  author_email : String
  date : Nat
  message : String
deriving DecidableEq, Repr

/-- Python `s * n` string repetition (`'  ' * level`). -/
def strRepeat (s : String) : Nat → String
  | 0 => ""
  | n + 1 => s ++ strRepeat s n

/-- Embedding of `wikiindexproducer`: the fixed header, then one appended
line per index entry — two spaces per `_level`, then a `[[page_name]]`
link. -/
def wikiindexproducer (index : List PageRow) : String :=
  index.foldl
    (fun out v => out ++ (strRepeat "  " v.level ++ "* [[" ++ v.page_name ++ "]]\n"))
    "**PortAudio**\n"

/-- Embedding of `getwikiblob` (the version body placeholder text). -/
def getwikiblob (v : WikiVersion) : String :=
  "\n# " ++ v.wiki_page.page_name ++ "\n\nThis is revision " ++ toString v.version ++
    " by " ++ (v.author.name.getD v.author.id) ++ " at " ++ toString v.updated_at ++
    ".\n\n## Placeholder page\n"

/-- The relation of `sorted(wikiversions, key=lambda v: v['_updated_at'])`. -/
def updLe (a b : WikiVersion) : Prop := a.updated_at ≤ b.updated_at

instance : DecidableRel updLe :=
  fun a b => inferInstanceAs (Decidable (a.updated_at ≤ b.updated_at))

instance : IsTotal WikiVersion updLe :=
  ⟨fun a b => Nat.le_total a.updated_at b.updated_at⟩

instance : IsTrans WikiVersion updLe := ⟨fun _ _ _ => Nat.le_trans⟩

/-- Python's stable sort of the version rows by `_updated_at`. -/
def sortVersions (vs : List WikiVersion) : List WikiVersion :=
  List.insertionSort updLe vs

/-- The loop body of `wikicommitgenerator`: the event yielded for version
`v` against the presentation order `order`.  The files dict is a Python dict
literal (`pyDictFromPairs`): if the page itself is titled `_Sidebar`, its
content entry lands on the same key and overwrites the index artifact. -/
def mkWikiCommit (order : List PageRow) (v : WikiVersion) : ReplayEvent :=
  { name := v.wiki_page.page_name ++ ":" ++ toString v.version
  , files := pyDictFromPairs
      [("_Sidebar.md", wikiindexproducer
          (order.filter (fun w => decide (w.created_at ≤ v.updated_at) && (w.status == 1)))),
       (v.wiki_page.page_name ++ ".md", getwikiblob v)]
  , author_name := v.author.name.getD v.author.id
  , author_email := v.author.email.getD "none@localhost"
  , date := v.updated_at
  , message := v.change_comment.getD "" }

/-- Embedding of `wikicommitgenerator`: one event per version row, in the
stably sorted ascending `_updated_at` order. -/
def wikicommitgenerator (wikiversions : List WikiVersion) (order : List PageRow) :
    List ReplayEvent :=
  (sortVersions wikiversions).map (mkWikiCommit order)

theorem filter_orderedInsert_upd (t : Nat) (a : WikiVersion) (l : List WikiVersion) :
    (List.orderedInsert updLe a l).filter (fun x => x.updated_at == t)
      = if a.updated_at == t then a :: l.filter (fun x => x.updated_at == t)
        else l.filter (fun x => x.updated_at == t) := by
  induction l with
  | nil =>
    rw [show List.orderedInsert updLe a [] = [a] from rfl]
    cases hb : a.updated_at == t <;> simp [List.filter_cons, hb]
  | cons b l ih =>
    rw [show List.orderedInsert updLe a (b :: l)
        = if updLe a b then a :: b :: l
          else b :: List.orderedInsert updLe a l from rfl]
    by_cases hab : updLe a b
    · rw [if_pos hab]
      cases hb : a.updated_at == t <;> simp [List.filter_cons, hb]
    · rw [if_neg hab]
      cases hb : a.updated_at == t with
      | true =>
        have hat : a.updated_at = t := beq_iff_eq.mp hb
        have hblt : b.updated_at < a.updated_at := Nat.lt_of_not_le hab
        have hbt : (b.updated_at == t) = false := beq_eq_false_iff_ne.mpr (by omega)
        simp [List.filter_cons, hbt, ih, hb]
      | false =>
        simp [List.filter_cons, ih, hb]

theorem filter_sortVersions (t : Nat) (l : List WikiVersion) :
    (sortVersions l).filter (fun x => x.updated_at == t)
      = l.filter (fun x => x.updated_at == t) := by
  induction l with
  | nil => rfl
  | cons a l ih =>
    rw [show sortVersions (a :: l) = List.orderedInsert updLe a (sortVersions l) from rfl,
      filter_orderedInsert_upd, ih]
    cases hb : a.updated_at == t <;> simp [List.filter_cons, hb]

/-- C1: the replay events come out in non-decreasing `_updated_at` order,
and the sort is stable — for any fixed timestamp `t`, the subsequence of
events dated `t` is exactly the events of the input versions with that
timestamp, in their original input order. -/
theorem replay_events_ordered (wikiversions : List WikiVersion) (order : List PageRow) :
    ((wikicommitgenerator wikiversions order).map (fun e => e.date)).Pairwise (· ≤ ·) ∧
      ∀ t : Nat,
        (wikicommitgenerator wikiversions order).filter (fun e => e.date == t)
          = (wikiversions.filter (fun v => v.updated_at == t)).map (mkWikiCommit order) := by
  constructor
  · rw [wikicommitgenerator, List.map_map]
    have hsorted : (sortVersions wikiversions).Pairwise updLe :=
      List.sorted_insertionSort updLe wikiversions
    exact hsorted.map _ (fun a b hab => hab)
  · intro t
    rw [wikicommitgenerator, List.filter_map,
      show ((fun e : ReplayEvent => e.date == t) ∘ mkWikiCommit order)
        = (fun v : WikiVersion => v.updated_at == t) from rfl,
      filter_sortVersions]

/-- Modelled from the spec words of C6: the link lines of the index, one per
node, in order. -/
def specIndexLines : List PageRow → String
  | [] => ""
  | w :: ws =>
    strRepeat "  " w.level ++ "* [[" ++ w.page_name ++ "]]\n" ++ specIndexLines ws

/-- Modelled from the spec words of C6: the fixed header followed by exactly
one line per node of the pre-order list whose creation timestamp is at or
before `now` and whose status is active, in order, each line indented two
spaces per depth level and formatted as a link on the display title. -/
def specIndexRender (order : List PageRow) (now : Nat) : String :=
  "**PortAudio**\n"
    ++ specIndexLines
      (order.filter (fun w => decide (w.created_at ≤ now) && (w.status == 1)))

theorem foldl_specIndexLines (l : List PageRow) (init : String) :
    l.foldl
        (fun out v => out ++ (strRepeat "  " v.level ++ "* [[" ++ v.page_name ++ "]]\n"))
        init
      = init ++ specIndexLines l := by
  induction l generalizing init with
  | nil =>
    rw [List.foldl_nil, show specIndexLines [] = "" from rfl, String.append_empty]
  | cons w ws ih =>
    rw [List.foldl_cons, ih,
      show specIndexLines (w :: ws)
        = strRepeat "  " w.level ++ "* [[" ++ w.page_name ++ "]]\n" ++ specIndexLines ws
        from rfl,
      String.append_assoc]

theorem wikiindexproducer_eq (index : List PageRow) :
    wikiindexproducer index = "**PortAudio**\n" ++ specIndexLines index :=
  foldl_specIndexLines index _

/-- C6 (amended): for any version whose page title is not `_Sidebar`, the
emitted event's `_Sidebar.md` entry is exactly the index artifact of the
spec — the fixed header plus one link line per pre-order node created at or
before this version's timestamp and active — recomputed against this
version's own timestamp; and the event of every input version occurs in the
generator's output. -/
theorem sidebar_is_active_index (order : List PageRow) (v : WikiVersion)
    (hname : v.wiki_page.page_name ≠ "_Sidebar") :
    pyLookup (mkWikiCommit order v).files "_Sidebar.md"
        = some (specIndexRender order v.updated_at) ∧
      ∀ vs : List WikiVersion, v ∈ vs →
        mkWikiCommit order v ∈ wikicommitgenerator vs order := by
  constructor
  · have hne : ¬ ("_Sidebar.md" : String) = v.wiki_page.page_name ++ ".md" := by
      intro he
      apply hname
      have hd : (v.wiki_page.page_name ++ ".md").data = ("_Sidebar.md" : String).data := by
        rw [he]
      rw [String.data_append,
        show ("_Sidebar.md" : String).data
          = ("_Sidebar" : String).data ++ (".md" : String).data from rfl] at hd
      have h3 := List.append_cancel_right hd
      have h4 : v.wiki_page.page_name = "_Sidebar" := by
        cases hpn : v.wiki_page.page_name with
        | mk l =>
          rw [hpn] at h3
          rw [show ("_Sidebar" : String).data
            = ['_', 'S', 'i', 'd', 'e', 'b', 'a', 'r'] from rfl] at h3
          rw [show (String.mk l).data = l from rfl] at h3
          rw [h3]
      exact h4
    show pyLookup
      (pyDictFromPairs
        [("_Sidebar.md", wikiindexproducer
            (order.filter
              (fun w => decide (w.created_at ≤ v.updated_at) && (w.status == 1)))),
         (v.wiki_page.page_name ++ ".md", getwikiblob v)]) "_Sidebar.md"
      = some (specIndexRender order v.updated_at)
    rw [show pyDictFromPairs
        [("_Sidebar.md", wikiindexproducer
            (order.filter
              (fun w => decide (w.created_at ≤ v.updated_at) && (w.status == 1)))),
         (v.wiki_page.page_name ++ ".md", getwikiblob v)]
      = pyInsert
          [("_Sidebar.md", wikiindexproducer
              (order.filter
                (fun w => decide (w.created_at ≤ v.updated_at) && (w.status == 1))))]
          (v.wiki_page.page_name ++ ".md") (getwikiblob v) from rfl]
    rw [pyLookup_pyInsert, if_neg hne]
    rw [show pyLookup
        [("_Sidebar.md", wikiindexproducer
            (order.filter
              (fun w => decide (w.created_at ≤ v.updated_at) && (w.status == 1))))]
        "_Sidebar.md"
      = some (wikiindexproducer
          (order.filter
            (fun w => decide (w.created_at ≤ v.updated_at) && (w.status == 1)))) from rfl]
    rw [wikiindexproducer_eq]
    rfl
  · intro vs hv
    have hmem : v ∈ sortVersions vs :=
      (List.perm_insertionSort updLe vs).mem_iff.mpr hv
    exact List.mem_map_of_mem (mkWikiCommit order) hmem

/-- Demo pre-order page for the C6 theorems. -/
def demoHome : PageRow := ⟨JValue.num 1, JValue.null, JValue.str "u", 0, 1, "Home", 0, 5, 0⟩

/-- Demo version of page `Home` for the C6 witness. -/
def demoVersion : WikiVersion := ⟨demoHome, 2, 7, ⟨"u", some "Ann", none⟩, some "msg"⟩

/-- C6 witness: the amended theorem at a concrete version of page `Home`. -/
theorem sidebar_is_active_index_witness :
    pyLookup (mkWikiCommit [demoHome] demoVersion).files "_Sidebar.md"
        = some (specIndexRender [demoHome] demoVersion.updated_at) ∧
      ∀ vs : List WikiVersion, demoVersion ∈ vs →
        mkWikiCommit [demoHome] demoVersion ∈ wikicommitgenerator vs [demoHome] :=
  sidebar_is_active_index [demoHome] demoVersion (by decide)

/-- Page titled `_Sidebar` for the C6 counterexample. -/
def sbPage : PageRow := ⟨JValue.num 2, JValue.null, JValue.str "u", 0, 1, "_Sidebar", 0, 5, 0⟩

/-- A version of the `_Sidebar`-titled page. -/
def sbVersion : WikiVersion := ⟨sbPage, 1, 5, ⟨"u", none, none⟩, none⟩

/-- C6 counterexample: for a version of a page titled `_Sidebar`, the
emitted event's `_Sidebar.md` entry holds the page body blob, not the index
artifact — the content filename collides with the index artifact's key in
the files dict literal and overwrites it — so the claim fails as stated for
that event. -/
theorem sidebar_cex :
    wikicommitgenerator [sbVersion] [demoHome] = [mkWikiCommit [demoHome] sbVersion] ∧
      pyLookup (mkWikiCommit [demoHome] sbVersion).files "_Sidebar.md"
        = some (getwikiblob sbVersion) ∧
      ¬ pyLookup (mkWikiCommit [demoHome] sbVersion).files "_Sidebar.md"
        = some (specIndexRender [demoHome] sbVersion.updated_at) :=
  ⟨rfl, by decide, by decide⟩
